import Mathlib

/-!
Verification of the resume/job matching engine (`src/main.rs`).

The Rust source is shallowly embedded as follows:

* Rust `String` / `&str` values are modelled as `List Char` (`Str` below);
  this matches Rust's UTF-8 strings on the code points, and byte-wise
  lexicographic `Ord` on UTF-8 agrees with code-point order.
* `f64` arithmetic is modelled over `ℚ`.  Every quantity the engine computes
  (Jaccard ratios, the composite score) is an exact small rational, and
  `f64::round` (round half away from zero) is modelled exactly by
  `rustRound`; the embedding therefore reproduces the intended real-number
  semantics of the score pipeline.
* The regex catalog `SKILL_PATTERNS` consists of case-insensitive literal
  patterns, optionally ending in the word-boundary anchor `\b`, plus the one
  pattern `node\.?js\b` with an optional dot.  `matchAt`/`findIter` embed
  `Regex::find_iter` for exactly these shapes: scan left to right, take the
  leftmost match, continue after its end.  The word character class `\w` is
  modelled by ASCII alphanumerics and `_`, which is faithful on the ASCII
  texts considered here.
* Rust `HashSet<String>` values are modelled as `Finset Str`.  A `HashSet`'s
  iteration order is unspecified, so every place where the code *iterates*
  a hash set into a `Vec` (the `matched_skills` of a result) is
  parametrised by an enumeration function `SetEnum`; `validEnum` states
  exactly what `HashSet` guarantees (each element once, some order).
* `slice::sort_by` is a stable sort; it is modelled by the stable
  `List.insertionSort` with the comparator of line 124
  (descending by `score`).
-/

namespace MatchingEngine

/-- Strings are modelled as lists of characters. -/
abbrev Str := List Char

/-- Rust's `str::to_lowercase`, restricted to the character-wise case map. -/
def lowerStr (s : Str) : Str := s.map Char.toLower

/-- Membership in the regex word class `\w` (ASCII fragment). -/
def isWordChar (c : Char) : Bool := c.isAlphanum || c = '_'

/-- Does the text start (case-insensitively) with the given lowercase literal? -/
def startsWithCI : Str → Str → Bool
  | _, [] => true
  | [], _ :: _ => false
  | c :: cs, p :: ps => (c.toLower == p) && startsWithCI cs ps

/-- The regex anchor `\b` placed after a word character: the rest of the text
is empty or starts with a non-word character. -/
def boundaryAfter : Str → Bool
  | [] => true
  | c :: _ => !(isWordChar c)

/-- Shapes of the 16 patterns in `SKILL_PATTERNS` (`main.rs` lines 16-26):
a case-insensitive literal with or without a trailing `\b`, or the special
pattern `node\.?js\b`. -/
inductive SkillPattern where
  | lit : Str → Bool → SkillPattern
  | nodeJs : SkillPattern

/-- Length of the match of a pattern at the start of `t`, if any.  For
`node\.?js\b` the greedy optional dot is tried first, as the regex engine
does. -/
def matchAt : SkillPattern → Str → Option Nat
  | .lit p wb, t =>
      if startsWithCI t p then
        if wb then (if boundaryAfter (t.drop p.length) then some p.length else none)
        else some p.length
      else none
  | .nodeJs, t =>
      if startsWithCI t "node".data then
        if startsWithCI (t.drop 4) ".js".data && boundaryAfter (t.drop 7) then some 7
        else if startsWithCI (t.drop 4) "js".data && boundaryAfter (t.drop 6) then some 6
        else none
      else none

/-- Embedding of `Regex::find_iter`: scan left to right, emit the leftmost
match, resume after its end.  `fuel` only bounds the recursion; it starts at
the text length and always dominates the length of the remaining text. -/
def findIterAux (p : SkillPattern) : Nat → Str → List Str
  | 0, _ => []
  | _, [] => []
  | Nat.succ fuel, c :: rest =>
      match matchAt p (c :: rest) with
      | some (Nat.succ n) => (c :: rest).take (n + 1) :: findIterAux p fuel (rest.drop n)
      | _ => findIterAux p fuel rest

/-- All matches of one pattern in a text, leftmost first. -/
def findIter (p : SkillPattern) (t : Str) : List Str := findIterAux p t.length t

/-- The fixed catalog `SKILL_PATTERNS` (`main.rs` lines 17-21), in source
order. -/
def skillPatterns : List SkillPattern :=
  [ .lit "rust".data true, .lit "c++".data false, .lit "python".data true,
    .lit "java".data true, .lit "sql".data true, .lit "postgresql".data true,
    .lit "docker".data true, .lit "kubernetes".data true, .lit "linux".data true,
    .lit "html".data true, .lit "css".data true, .lit "javascript".data true,
    .lit "react".data true, .nodeJs, .lit "nlp".data true,
    .lit "natural language processing".data true ]

/-- Every raw (not yet lower-cased) matched substring of every catalog
pattern, in scan order. -/
def allMatches (t : Str) : List Str := (skillPatterns.map (fun p => findIter p t)).flatten

/-- Lexicographic (code-point) strict order on strings; this is Rust's
`Ord for String` restricted to the orders compared here. -/
def lexLt : Str → Str → Bool
  | [], [] => false
  | [], _ :: _ => true
  | _ :: _, [] => false
  | a :: as, b :: bs => if a < b then true else if a = b then lexLt as bs else false

/-- Strict lexicographic order as a relation. -/
def LtStr (a b : Str) : Prop := lexLt a b = true

/-- Ordered duplicate-discarding insertion. -/
def insertSorted (x : Str) : List Str → List Str
  | [] => [x]
  | y :: ys => if lexLt x y then x :: y :: ys
               else if x = y then y :: ys
               else y :: insertSorted x ys

/-- The combination `HashSet` insertion followed by `Vec::sort` performed by
`extract_skills_from_text` (`main.rs` lines 60-68): the sorted list of the
distinct elements of `l`. -/
def sortDedup (l : List Str) : List Str := l.foldr insertSorted []

/-- Embedding of `extract_skills_from_text` (`main.rs` lines 59-69): collect
the lower-cased text of every pattern match into a set, then sort. -/
def extract_skills_from_text (t : Str) : List Str :=
  sortDedup ((allMatches t).map lowerStr)

/-- Embedding of `CandidateInput` (`main.rs` lines 29-33). -/
structure CandidateInput where
  name : Option Str
  raw_text : Str

/-- Embedding of `JobInput` (`main.rs` lines 35-41). -/
structure JobInput where
  id : Str
  title : Str
  description : Str
  required_skills : Option (List Str)

/-- Embedding of `MatchResult` (`main.rs` lines 43-49).  The `explanation`
string `format!("skill_jaccard={:.3}", skill_score)` is a deterministic
rendering of the similarity; it is modelled by the similarity value it
records. -/
structure MatchResult where
  job_id : Str
  score : ℚ
  matched_skills : List Str
  explanation : ℚ
deriving DecidableEq

/-- Embedding of `MatchRequest` (`main.rs` lines 51-56); `top_k` has already
passed `usize` deserialization, hence `Option Nat`. -/
structure MatchRequest where
  candidate : CandidateInput
  jobs : List JobInput
  top_k : Option Nat

/-- A match request as it arrives on the wire, before the typed JSON
boundary: `top_k` is an arbitrary JSON integer. -/
structure RawMatchRequest where
  candidate : CandidateInput
  jobs : List JobInput
  top_k : Option Int

/-- Rust's `f64::round`: round half away from zero. -/
def rustRound (x : ℚ) : ℤ := if 0 ≤ x then ⌊x + 1 / 2⌋ else ⌈x - 1 / 2⌉

/-- Embedding of `jaccard_similarity` (`main.rs` lines 71-82): the early
return for two empty sets, then `inter = |a ∩ b|`, `uni = |a ∪ b|`, and the
guarded division `if uni == 0.0 { 0.0 } else { inter / uni }`. -/
def jaccard_similarity (a b : Finset Str) : ℚ :=
  if a = ∅ ∧ b = ∅ then 1
  else if ((a ∪ b).card : ℚ) = 0 then 0
  else ((a ∩ b).card : ℚ) / ((a ∪ b).card : ℚ)

/-- Embedding of the per-job skill set construction (`main.rs` lines
94-103): lower-cased declared skills united with (re-lower-cased) skills
extracted from the description. -/
def jobSkillSet (job : JobInput) : Finset Str :=
  (((job.required_skills.getD []).map lowerStr).toFinset) ∪
    (((extract_skills_from_text job.description).map lowerStr).toFinset)

/-- The candidate skill set (`main.rs` lines 88-89). -/
def candSet (c : CandidateInput) : Finset Str :=
  (extract_skills_from_text c.raw_text).toFinset

/-- An enumeration of a hash set into a vector, as `HashSet` iteration plus
`collect` produces (`main.rs` lines 111-112); the order is unspecified, so
the pipeline is parametrised by it. -/
abbrev SetEnum := Finset Str → List Str

/-- What `HashSet` iteration does guarantee: every element exactly once. -/
def validEnum (e : SetEnum) : Prop := ∀ s, (e s).Nodup ∧ (e s).toFinset = s

/-- A family of valid enumerations: on the set underlying the seed list the
seed's order is used, elsewhere a sorted order.  Instances of this family
witness that a `HashSet` may be iterated in any duplicate-free order. -/
def constEnum (l : List Str) : SetEnum := fun s =>
  if s = l.toFinset ∧ l.Nodup then l else Finset.sort (· ≤ ·) s

/-- Embedding of the per-job body of the scoring loop (`main.rs` lines
93-122), producing one `MatchResult` from the candidate set and one job. -/
def scoreJob (e : SetEnum) (cand_set : Finset Str) (job : JobInput) : MatchResult :=
  let job_skills := jobSkillSet job
  let skill_score := jaccard_similarity cand_set job_skills
  let experience_score : ℚ := 0
  let final_score : ℚ :=
    100 * (6 / 10 * skill_score + 25 / 100 * experience_score + 15 / 100 * 0)
  { job_id := job.id
    score := ((rustRound (final_score * 100) : ℚ)) / 100
    matched_skills := e (cand_set ∩ job_skills)
    explanation := skill_score }

/-- The comparator of `main.rs` line 124,
`|a, b| b.score.partial_cmp(&a.score).unwrap()`: `a` sorts no later than `b`
iff `b.score ≤ a.score` (descending by score).  On the `ℚ` model the
comparison is total, so the `unwrap` is modelled by the total relation. -/
def scoreDesc (a b : MatchResult) : Prop := b.score ≤ a.score

instance : DecidableRel scoreDesc := fun a b =>
  inferInstanceAs (Decidable (b.score ≤ a.score))

instance : IsTotal MatchResult scoreDesc :=
  ⟨fun a b => le_total b.score a.score⟩

instance : IsTrans MatchResult scoreDesc :=
  ⟨fun _ _ _ h1 h2 => le_trans h2 h1⟩

/-- Embedding of the ranking step (`main.rs` lines 124-126): stable sort
descending by score, then truncate to
`top_k.unwrap_or(results.len()).min(results.len())` entries. -/
def rank (results : List MatchResult) (top_k : Option Nat) : List MatchResult :=
  let sorted := results.insertionSort scoreDesc
  sorted.take (min (top_k.getD results.length) results.length)

/-- Embedding of `handle_match` (`main.rs` lines 85-129) after the typed
JSON boundary: extract the candidate set, score every job, rank. -/
def handle_match (e : SetEnum) (payload : MatchRequest) : List MatchResult :=
  let cand_set := candSet payload.candidate
  let results := payload.jobs.map (scoreJob e cand_set)
  rank results payload.top_k

/-- The rejection message of the typed boundary for a negative `top_k`. -/
def invalidTopKMsg : Str := "invalid value: negative integer for usize field top_k".data

/-- The typed JSON boundary for `top_k`: `MatchRequest` declares
`top_k: Option<usize>` (`main.rs` line 55), so serde's `usize`
deserialization rejects any negative JSON integer before the handler body
runs. -/
def decodeTopK : Option Int → Except Str (Option Nat)
  | none => Except.ok none
  | some k => if k < 0 then Except.error invalidTopKMsg else Except.ok (some k.toNat)

/-- The match endpoint as seen from the wire: deserialize (which validates
`top_k`), then run the handler.  When deserialization fails the handler is
never invoked. -/
def serveMatch (e : SetEnum) (r : RawMatchRequest) : Except Str (List MatchResult) :=
  (decodeTopK r.top_k).map fun k =>
    handle_match e { candidate := r.candidate, jobs := r.jobs, top_k := k }

/-- Scenario A job: `"Looking for a Rust developer"`, no declared skills. -/
def jobA : JobInput :=
  { id := "j1".data, title := "Rust dev".data,
    description := "Looking for a Rust developer".data, required_skills := none }

/-- Scenario A request: candidate text `"I know Rust and Python"`. -/
def reqA : MatchRequest :=
  { candidate := { name := none, raw_text := "I know Rust and Python".data },
    jobs := [jobA], top_k := none }

/-- Scenario-C result for job `b`, scoring 30. -/
def rB : MatchResult :=
  { job_id := "b".data, score := 30, matched_skills := [], explanation := 1 / 2 }

/-- Scenario-C result for job `a`, scoring 30. -/
def rA : MatchResult :=
  { job_id := "a".data, score := 30, matched_skills := [], explanation := 1 / 2 }

/-- Scenario-C result for job `c`, scoring 10. -/
def rC : MatchResult :=
  { job_id := "c".data, score := 10, matched_skills := [], explanation := 1 / 6 }

/-- Scenario-C shaped results: jobs `b`, `a`, `c` scoring 30, 30, 10, in
that input order. -/
def resultsC : List MatchResult := [rB, rA, rC]

/-- A job requiring both `rust` and `python`, used to exercise a two-element
matched set. -/
def jobRP : JobInput :=
  { id := "j2".data, title := "dev".data, description := "".data,
    required_skills := some ["rust".data, "python".data] }

/-- A request whose matched-skill set has two elements. -/
def reqRP : MatchRequest :=
  { candidate := { name := none, raw_text := "I know Rust and Python".data },
    jobs := [jobRP], top_k := none }

/-- A job with an empty description and no declared skills (Scenario B). -/
def jobB : JobInput :=
  { id := "j0".data, title := "".data, description := "".data, required_skills := none }

/-- An empty-text request with one blank job (Scenario B shape). -/
def reqB : MatchRequest :=
  { candidate := { name := none, raw_text := "".data }, jobs := [jobB], top_k := none }

/-- A wire-level request carrying `top_k = -1`. -/
def rawNeg : RawMatchRequest :=
  { candidate := { name := none, raw_text := [] }, jobs := [], top_k := some (-1) }

/-- A candidate with a name, for the purity claim. -/
def cand9a : CandidateInput :=
  { name := some "Alice".data, raw_text := "I know Rust and Python".data }

/-- The same candidate text without a name. -/
def cand9b : CandidateInput :=
  { name := none, raw_text := "I know Rust and Python".data }

/-- A job for the purity claim. -/
def job9a : JobInput :=
  { id := "left".data, title := "Senior dev".data,
    description := "Looking for a Rust developer".data, required_skills := none }

/-- The same job content under a different id and title. -/
def job9b : JobInput :=
  { id := "right".data, title := "Junior dev".data,
    description := "Looking for a Rust developer".data, required_skills := none }

instance : DecidableRel LtStr := fun a b =>
  inferInstanceAs (Decidable (lexLt a b = true))

/-! ### Properties of the lexicographic order and of `sortDedup` -/

theorem lexLt_iff : ∀ (a b : Str), lexLt a b = true ↔ List.Lex (· < ·) a b
  | [], [] => by
      simp only [lexLt, Bool.false_eq_true, false_iff]
      exact List.Lex.not_nil_right _ _
  | [], _ :: _ => by
      simp only [lexLt, true_iff]
      exact List.Lex.nil
  | _ :: _, [] => by
      simp only [lexLt, Bool.false_eq_true, false_iff]
      exact List.Lex.not_nil_right _ _
  | a :: as, b :: bs => by
      simp only [lexLt]
      split_ifs with h1 h2
      · simp only [true_iff]
        exact List.Lex.rel h1
      · subst h2
        simpa only [List.Lex.cons_iff] using lexLt_iff as bs
      · simp only [Bool.false_eq_true, false_iff]
        intro h
        cases h with
        | cons h => exact h2 rfl
        | rel h => exact h1 h

theorem ltStr_irrefl (a : Str) : ¬ LtStr a a := by
  rw [LtStr, lexLt_iff]
  exact irrefl_of (List.Lex (· < ·)) a

theorem ltStr_trans {a b c : Str} (h1 : LtStr a b) (h2 : LtStr b c) : LtStr a c := by
  rw [LtStr, lexLt_iff] at h1 h2 ⊢
  exact trans_of (List.Lex (· < ·)) h1 h2

theorem ltStr_total {a b : Str} (h : a ≠ b) : LtStr a b ∨ LtStr b a := by
  rw [LtStr, LtStr, lexLt_iff, lexLt_iff]
  rcases trichotomous_of (List.Lex ((· < ·) : Char → Char → Prop)) a b with h1 | h1 | h1
  · exact Or.inl h1
  · exact absurd h1 h
  · exact Or.inr h1

theorem mem_insertSorted (a x : Str) :
    ∀ l : List Str, a ∈ insertSorted x l ↔ a = x ∨ a ∈ l
  | [] => by simp [insertSorted]
  | y :: ys => by
      simp only [insertSorted]
      split_ifs with h1 h2
      · simp [List.mem_cons]
      · subst h2
        simp only [List.mem_cons]
        tauto
      · simp only [List.mem_cons, mem_insertSorted a x ys]
        tauto

theorem pairwise_insertSorted (x : Str) :
    ∀ l : List Str, l.Pairwise LtStr → (insertSorted x l).Pairwise LtStr
  | [], _ => by simp [insertSorted]
  | y :: ys, h => by
      simp only [insertSorted]
      rcases List.pairwise_cons.mp h with ⟨hy, hys⟩
      split_ifs with h1 h2
      · refine List.pairwise_cons.mpr ⟨?_, h⟩
        intro b hb
        rcases List.mem_cons.mp hb with rfl | hb
        · exact h1
        · exact ltStr_trans h1 (hy b hb)
      · exact h
      · refine List.pairwise_cons.mpr ⟨?_, pairwise_insertSorted x ys hys⟩
        intro b hb
        rcases (mem_insertSorted b x ys).mp hb with rfl | hb
        · rcases ltStr_total (fun h => h2 h.symm) with h3 | h3
          · exact h3
          · exact absurd h3 h1
        · exact hy b hb

theorem sortDedup_pairwise (l : List Str) : (sortDedup l).Pairwise LtStr := by
  induction l with
  | nil => simp [sortDedup]
  | cons x xs ih => exact pairwise_insertSorted x _ ih

theorem mem_sortDedup (a : Str) (l : List Str) : a ∈ sortDedup l ↔ a ∈ l := by
  induction l with
  | nil => simp [sortDedup]
  | cons x xs ih =>
      simp only [sortDedup, List.foldr_cons, List.mem_cons]
      rw [show xs.foldr insertSorted [] = sortDedup xs from rfl] at *
      rw [mem_insertSorted, ih]

theorem sortDedup_nodup (l : List Str) : (sortDedup l).Nodup :=
  (sortDedup_pairwise l).imp fun h => by
    intro hab
    subst hab
    exact ltStr_irrefl _ h

theorem toFinset_sortDedup (l : List Str) : (sortDedup l).toFinset = l.toFinset := by
  ext a
  simp [List.mem_toFinset, mem_sortDedup]

/-! ### Enumerations and extraction -/

theorem validEnum_constEnum (l : List Str) : validEnum (constEnum l) := by
  intro s
  unfold constEnum
  split_ifs with h
  · exact ⟨h.2, h.1.symm⟩
  · exact ⟨Finset.sort_nodup _ _, Finset.sort_toFinset _ _⟩

theorem extract_nil : extract_skills_from_text [] = [] := rfl

theorem mem_extract (s : Str) (t : Str) :
    s ∈ extract_skills_from_text t ↔ ∃ m, m ∈ allMatches t ∧ lowerStr m = s := by
  rw [extract_skills_from_text, mem_sortDedup]
  simp [List.mem_map]

theorem extract_of_no_matches {t : Str} (h : allMatches t = []) :
    extract_skills_from_text t = [] := by
  rw [extract_skills_from_text, h]
  rfl

theorem extract_nodup (t : Str) : (extract_skills_from_text t).Nodup :=
  sortDedup_nodup _

theorem extract_pairwise (t : Str) :
    (extract_skills_from_text t).Pairwise LtStr :=
  sortDedup_pairwise _

/-! ### Jaccard similarity -/

theorem jaccard_both_empty {a b : Finset Str} (ha : a = ∅) (hb : b = ∅) :
    jaccard_similarity a b = 1 := by
  rw [jaccard_similarity, if_pos ⟨ha, hb⟩]

theorem jaccard_of_union_ne {a b : Finset Str} (h : a ∪ b ≠ ∅) :
    jaccard_similarity a b = ((a ∩ b).card : ℚ) / ((a ∪ b).card : ℚ) := by
  have hne : ¬(a = ∅ ∧ b = ∅) := by
    intro ⟨ha, hb⟩
    exact h (by rw [ha, hb, Finset.union_empty])
  have hcard : (a ∪ b).card ≠ 0 := by
    simpa [Finset.card_eq_zero] using h
  rw [jaccard_similarity, if_neg hne, if_neg (by exact_mod_cast hcard)]

theorem jaccard_nonneg (a b : Finset Str) : 0 ≤ jaccard_similarity a b := by
  rw [jaccard_similarity]
  split_ifs with h1 h2
  · norm_num
  · norm_num
  · positivity

theorem jaccard_le_one (a b : Finset Str) : jaccard_similarity a b ≤ 1 := by
  rw [jaccard_similarity]
  split_ifs with h1 h2
  · norm_num
  · norm_num
  · have hpos : (0 : ℚ) < ((a ∪ b).card : ℚ) :=
      lt_of_le_of_ne (by positivity) (Ne.symm h2)
    rw [div_le_one hpos]
    exact_mod_cast Finset.card_le_card
      (Finset.Subset.trans Finset.inter_subset_left Finset.subset_union_left)

theorem jaccard_self (a : Finset Str) : jaccard_similarity a a = 1 := by
  by_cases ha : a = ∅
  · exact jaccard_both_empty ha ha
  · rw [jaccard_of_union_ne (by simpa [Finset.union_self] using ha)]
    rw [Finset.inter_self, Finset.union_self]
    have : (a.card : ℚ) ≠ 0 := by
      exact_mod_cast fun h => ha (Finset.card_eq_zero.mp h)
    exact div_self this

/-! ### Rounding -/

theorem rustRound_of_nonneg {x : ℚ} (h : 0 ≤ x) : rustRound x = ⌊x + 1 / 2⌋ := by
  rw [rustRound, if_pos h]

theorem rustRound_bounds {x : ℚ} {n : ℤ} (h0 : 0 ≤ x) (h : x ≤ (n : ℚ)) :
    0 ≤ rustRound x ∧ rustRound x ≤ n := by
  rw [rustRound_of_nonneg h0]
  constructor
  · rw [Int.le_floor]
    push_cast
    linarith
  · have : ⌊x + 1 / 2⌋ < n + 1 := by
      rw [Int.floor_lt]
      push_cast
      linarith
    omega

/-! ### The per-job score -/

theorem scoreJob_score (e : SetEnum) (a : Finset Str) (job : JobInput) :
    (scoreJob e a job).score =
      ((rustRound (jaccard_similarity a (jobSkillSet job) * 6000) : ℚ)) / 100 := by
  have h : (100 : ℚ) * (6 / 10 * jaccard_similarity a (jobSkillSet job)
        + 25 / 100 * 0 + 15 / 100 * 0) * 100
      = jaccard_similarity a (jobSkillSet job) * 6000 := by ring
  show ((rustRound
      (100 * (6 / 10 * jaccard_similarity a (jobSkillSet job) + 25 / 100 * 0 + 15 / 100 * 0)
        * 100) : ℚ)) / 100 = _
  rw [h]

theorem scoreJob_matched (e : SetEnum) (a : Finset Str) (job : JobInput) :
    (scoreJob e a job).matched_skills = e (a ∩ jobSkillSet job) := rfl

theorem scoreJob_explanation (e : SetEnum) (a : Finset Str) (job : JobInput) :
    (scoreJob e a job).explanation = jaccard_similarity a (jobSkillSet job) := rfl

theorem scoreJob_score_bounds (e : SetEnum) (a : Finset Str) (job : JobInput) :
    0 ≤ (scoreJob e a job).score ∧ (scoreJob e a job).score ≤ 60 := by
  rw [scoreJob_score]
  have hj0 := jaccard_nonneg a (jobSkillSet job)
  have hj1 := jaccard_le_one a (jobSkillSet job)
  have hb := rustRound_bounds (x := jaccard_similarity a (jobSkillSet job) * 6000)
    (n := 6000) (by positivity) (by push_cast; linarith)
  constructor
  · have h1 : (0 : ℚ) ≤ (rustRound (jaccard_similarity a (jobSkillSet job) * 6000) : ℚ) := by
      exact_mod_cast hb.1
    positivity
  · rw [div_le_iff₀ (by norm_num : (0:ℚ) < 100)]
    have h2 : (rustRound (jaccard_similarity a (jobSkillSet job) * 6000) : ℚ) ≤ 6000 := by
      exact_mod_cast hb.2
    linarith

/-! ### Ranking -/

theorem rank_none (results : List MatchResult) :
    rank results none = List.insertionSort scoreDesc results := by
  have hlen : (List.insertionSort scoreDesc results).length = results.length :=
    (List.perm_insertionSort scoreDesc results).length_eq
  show (List.insertionSort scoreDesc results).take
      (min ((none : Option Nat).getD results.length) results.length) = _
  rw [Option.getD_none, min_self, ← hlen, List.take_length]

theorem rank_some (results : List MatchResult) (k : Nat) :
    rank results (some k) =
      (List.insertionSort scoreDesc results).take (min k results.length) := rfl

theorem length_rank_some (results : List MatchResult) (k : Nat) :
    (rank results (some k)).length = min k results.length := by
  rw [rank_some, List.length_take,
    (List.perm_insertionSort scoreDesc results).length_eq]
  omega

theorem rank_zero (results : List MatchResult) : rank results (some 0) = [] := by
  rw [rank_some]
  simp

theorem rank_sorted (results : List MatchResult) (k : Option Nat) :
    List.Sorted scoreDesc (rank results k) := by
  have hs : List.Sorted scoreDesc (List.insertionSort scoreDesc results) :=
    List.sorted_insertionSort scoreDesc results
  cases k with
  | none => rw [rank_none]; exact hs
  | some k => exact List.Pairwise.sublist (List.take_sublist _ _) hs

theorem mem_rank {r : MatchResult} {results : List MatchResult} {k : Option Nat}
    (h : r ∈ rank results k) : r ∈ results := by
  have h1 : r ∈ List.insertionSort scoreDesc results := by
    cases k with
    | none => rw [rank_none] at h; exact h
    | some k => exact List.take_subset _ _ h
  exact (List.perm_insertionSort scoreDesc results).mem_iff.mp h1

theorem filter_orderedInsert_score (s : ℚ) (a : MatchResult) :
    ∀ m : List MatchResult,
      (List.orderedInsert scoreDesc a m).filter (fun x => decide (x.score = s)) =
        if a.score = s then a :: m.filter (fun x => decide (x.score = s))
        else m.filter (fun x => decide (x.score = s))
  | [] => by
      by_cases h : a.score = s <;>
        simp [List.orderedInsert, List.filter_cons, h]
  | b :: bs => by
      by_cases hab : scoreDesc a b
      · rw [List.orderedInsert, if_pos hab, List.filter_cons]
        by_cases has : a.score = s <;> simp [has]
      · rw [List.orderedInsert, if_neg hab, List.filter_cons, List.filter_cons,
          filter_orderedInsert_score s a bs]
        have hlt : a.score < b.score := not_le.mp hab
        by_cases hbs : b.score = s
        · -- the head `b` scores `s`; then `a` cannot, since `a.score < b.score`
          have has : ¬ a.score = s := by
            rw [hbs] at hlt
            exact ne_of_lt hlt
          simp [hbs, has]
        · by_cases has : a.score = s <;> simp [hbs, has]

theorem filter_insertionSort_score (s : ℚ) :
    ∀ l : List MatchResult,
      (List.insertionSort scoreDesc l).filter (fun x => decide (x.score = s)) =
        l.filter (fun x => decide (x.score = s))
  | [] => rfl
  | a :: l => by
      rw [List.insertionSort, filter_orderedInsert_score s a,
        filter_insertionSort_score s l, List.filter_cons]
      by_cases h : a.score = s <;> simp [h]

/-! ### The handler -/

theorem handle_match_eq (e : SetEnum) (payload : MatchRequest) :
    handle_match e payload =
      rank (payload.jobs.map (scoreJob e (candSet payload.candidate))) payload.top_k := rfl

theorem mem_handle_match {e : SetEnum} {req : MatchRequest} {r : MatchResult}
    (h : r ∈ handle_match e req) :
    ∃ job, job ∈ req.jobs ∧ r = scoreJob e (candSet req.candidate) job := by
  have h1 : r ∈ req.jobs.map (scoreJob e (candSet req.candidate)) := mem_rank h
  rcases List.mem_map.mp h1 with ⟨job, hj, hr⟩
  exact ⟨job, hj, hr.symm⟩

theorem handle_match_singleton (e : SetEnum) (c : CandidateInput) (j : JobInput) :
    handle_match e { candidate := c, jobs := [j], top_k := none }
      = [scoreJob e (candSet c) j] := rfl

/-! ### Concrete scenario computations -/

theorem jaccardA (a : Finset Str) (h : a = candSet reqA.candidate) :
    jaccard_similarity a (jobSkillSet jobA) = 1 / 2 := by
  subst h
  rw [jaccard_of_union_ne (by decide)]
  rw [show (candSet reqA.candidate ∩ jobSkillSet jobA).card = 1 from by decide,
    show (candSet reqA.candidate ∪ jobSkillSet jobA).card = 2 from by decide]
  norm_num

theorem rustRound_intCast (n : ℤ) : rustRound (n : ℚ) = n := by
  rcases le_or_lt 0 (n : ℚ) with h | h
  · rw [rustRound_of_nonneg h, Int.floor_eq_iff]
    refine ⟨by linarith, by linarith⟩
  · rw [rustRound, if_neg (not_le.mpr h), Int.ceil_eq_iff]
    refine ⟨by linarith, by linarith⟩

theorem scoreA (e : SetEnum) :
    (scoreJob e (candSet reqA.candidate) jobA).score = 30 := by
  rw [scoreJob_score, jaccardA _ rfl]
  rw [show (1 : ℚ) / 2 * 6000 = ((3000 : ℤ) : ℚ) from by norm_num, rustRound_intCast]
  norm_num

theorem rankC_eq : rank resultsC (some 2) = [rB, rA] := by
  have h1 : List.orderedInsert scoreDesc rA [rC] = [rA, rC] := by
    rw [List.orderedInsert, if_pos (by norm_num [scoreDesc, rA, rC] : scoreDesc rA rC)]
  have h2 : List.orderedInsert scoreDesc rB [rA, rC] = [rB, rA, rC] := by
    rw [List.orderedInsert, if_pos (by norm_num [scoreDesc, rA, rB] : scoreDesc rB rA)]
  have hsort : List.insertionSort scoreDesc resultsC = [rB, rA, rC] := by
    show List.orderedInsert scoreDesc rB
        (List.orderedInsert scoreDesc rA (List.orderedInsert scoreDesc rC [])) = _
    rw [List.orderedInsert_nil, h1, h2]
  rw [rank_some, hsort]
  rfl

/-! ## Claims -/

/-- C2: for every candidate skill set and job skill set the composite score
equals `60 * similarity` (the experience and other signals being `0.0`),
rounded to two decimal places with round-half-away-from-zero semantics
(`rustRound` is exactly `f64::round`), and is not rescaled a second time:
it stays within the 0–100 scale.  In particular Scenario A (candidate
`"I know Rust and Python"`, job `"Looking for a Rust developer"`, no
`required_skills`) yields the composite 30.00. -/
theorem C2_composite_single_scaled :
    (∀ (e : SetEnum) (a : Finset Str) (job : JobInput),
        (scoreJob e a job).score
            = ((rustRound (60 * jaccard_similarity a (jobSkillSet job) * 100) : ℚ)) / 100
          ∧ 0 ≤ (scoreJob e a job).score ∧ (scoreJob e a job).score ≤ 100)
    ∧ ∀ e : SetEnum, (handle_match e reqA).map MatchResult.score = [30] := by
  constructor
  · intro e a job
    refine ⟨?_, (scoreJob_score_bounds e a job).1,
      le_trans (scoreJob_score_bounds e a job).2 (by norm_num)⟩
    rw [scoreJob_score,
      show (60 : ℚ) * jaccard_similarity a (jobSkillSet job) * 100
        = jaccard_similarity a (jobSkillSet job) * 6000 from by ring]
  · intro e
    show [(scoreJob e (candSet reqA.candidate) jobA).score] = [30]
    rw [scoreA]

/-- C3: the similarity is `|A ∩ B| / |A ∪ B|` whenever the union is
non-empty and `1.0` when both sets are empty; it always lies in `[0, 1]`,
and `similarity(A, A) = 1` for every `A`, the empty set included. -/
theorem C3_jaccard_spec (a b : Finset Str) :
    (a ∪ b ≠ ∅ → jaccard_similarity a b = ((a ∩ b).card : ℚ) / ((a ∪ b).card : ℚ))
    ∧ ((a = ∅ ∧ b = ∅) → jaccard_similarity a b = 1)
    ∧ 0 ≤ jaccard_similarity a b ∧ jaccard_similarity a b ≤ 1
    ∧ jaccard_similarity a a = 1 :=
  ⟨fun h => jaccard_of_union_ne h, fun h => jaccard_both_empty h.1 h.2,
    jaccard_nonneg a b, jaccard_le_one a b, jaccard_self a⟩

/-- C3 witness: the general theorem applied to `A = {rust}`, `B = ∅` (for
the non-empty-union branch) and to `A = B = ∅` (the defined edge case). -/
theorem C3_jaccard_spec_witness :
    (({"rust".data} : Finset Str) ∪ ∅ ≠ ∅
      ∧ jaccard_similarity {"rust".data} ∅
          = ((({"rust".data} : Finset Str) ∩ ∅).card : ℚ)
              / ((({"rust".data} : Finset Str) ∪ ∅).card : ℚ))
    ∧ jaccard_similarity (∅ : Finset Str) ∅ = 1 :=
  ⟨⟨by decide, (C3_jaccard_spec {"rust".data} ∅).1 (by decide)⟩,
    (C3_jaccard_spec ∅ ∅).2.1 ⟨rfl, rfl⟩⟩

/-- C5: with `top_k` absent the ranker keeps the whole sorted sequence;
with `top_k = k` it keeps exactly the first `min k (length results)`
entries of the sorted sequence, so `k = 0` yields the empty sequence, and
`top_k = length results` coincides with the absent case. -/
theorem C5_top_k_truncation (results : List MatchResult) (k : Nat) :
    rank results none = List.insertionSort scoreDesc results
    ∧ (rank results none).length = results.length
    ∧ rank results (some k)
        = (List.insertionSort scoreDesc results).take (min k results.length)
    ∧ (rank results (some k)).length = min k results.length
    ∧ rank results (some 0) = []
    ∧ rank results none = rank results (some results.length) := by
  refine ⟨rank_none results, ?_, rank_some results k, length_rank_some results k,
    rank_zero results, ?_⟩
  · rw [rank_none]
    exact (List.perm_insertionSort scoreDesc results).length_eq
  · rw [rank_none, rank_some, min_self,
      ← (List.perm_insertionSort scoreDesc results).length_eq, List.take_length]

/-- C6: extraction is a total function of the text: its result is
duplicate-free, its members are exactly the lower-casings of the matched
substrings of the catalog patterns (the matched text itself, not a
canonical name), a text with no pattern match yields the empty set, and
the empty string yields the empty set. -/
theorem C6_extraction_total (t : Str) :
    (extract_skills_from_text t).Nodup
    ∧ (∀ s : Str, s ∈ extract_skills_from_text t
        ↔ ∃ m, m ∈ allMatches t ∧ lowerStr m = s)
    ∧ (allMatches t = [] → extract_skills_from_text t = [])
    ∧ extract_skills_from_text [] = [] :=
  ⟨extract_nodup t, fun s => mem_extract s t, fun h => extract_of_no_matches h,
    extract_nil⟩

/-- C6 witness: the theorem applied to `"hello world"` (no pattern
matches, so the result is empty) and to the empty string. -/
theorem C6_extraction_total_witness :
    (allMatches "hello world".data = []
      ∧ extract_skills_from_text "hello world".data = [])
    ∧ extract_skills_from_text [] = [] :=
  ⟨⟨by decide, (C6_extraction_total "hello world".data).2.2.1 (by decide)⟩,
    (C6_extraction_total []).2.2.2⟩

/-- C1 counterexample: the code sorts only by descending score with a
stable sort and applies no `job_id` tie-break; on Scenario C (jobs `b`,
`a`, `c` scoring 30, 30, 10 in that input order, `top_k = 2`) the output
order is `[b, a]`, not the claimed `[a, b]`. -/
theorem C1_counterexample :
    (rank resultsC (some 2)).map MatchResult.job_id ≠ ["a".data, "b".data] := by
  rw [rankC_eq]
  show [rB.job_id, rA.job_id] ≠ _
  decide

/-- C1 amended: the ranked output is non-increasing in score, but ties are
broken by the stable sort's input order, not by `job_id`: for every score
value the sub-sequence of results carrying that score is exactly the input
sub-sequence with that score, and Scenario C returns `[b, a]`. -/
theorem C1_rank_order_amended (results : List MatchResult) (k : Option Nat) (s : ℚ) :
    List.Sorted scoreDesc (rank results k)
    ∧ (rank results none).filter (fun x => decide (x.score = s))
        = results.filter (fun x => decide (x.score = s))
    ∧ (rank resultsC (some 2)).map MatchResult.job_id = ["b".data, "a".data] := by
  refine ⟨rank_sorted results k, ?_, ?_⟩
  · rw [rank_none]
    exact filter_insertionSort_score s results
  · rw [rankC_eq]
    decide

/-- C4: the matched skills of a produced result are exactly the
intersection of the candidate and job skill sets — hence contained in
each — for every duplicate-free hash-set enumeration order; and every
result the handler produces satisfies the invariant for its own job. -/
theorem C4_matched_is_intersection (e : SetEnum) (he : validEnum e)
    (a : Finset Str) (job : JobInput) (req : MatchRequest) (r : MatchResult)
    (hr : r ∈ handle_match e req) :
    ((scoreJob e a job).matched_skills).toFinset = a ∩ jobSkillSet job
    ∧ ((scoreJob e a job).matched_skills).toFinset ⊆ a
    ∧ ((scoreJob e a job).matched_skills).toFinset ⊆ jobSkillSet job
    ∧ ∃ job2, job2 ∈ req.jobs
        ∧ r.matched_skills.toFinset = candSet req.candidate ∩ jobSkillSet job2 := by
  have h1 : ((scoreJob e a job).matched_skills).toFinset = a ∩ jobSkillSet job := by
    rw [scoreJob_matched]
    exact (he _).2
  refine ⟨h1, ?_, ?_, ?_⟩
  · rw [h1]
    exact Finset.inter_subset_left
  · rw [h1]
    exact Finset.inter_subset_right
  · rcases mem_handle_match hr with ⟨job2, hj, rfl⟩
    refine ⟨job2, hj, ?_⟩
    rw [scoreJob_matched]
    exact (he _).2

/-- C4 witness: the theorem applied to the sorted enumeration, Scenario B's
blank request, and the one result it produces. -/
theorem C4_matched_is_intersection_witness :
    validEnum (constEnum [])
    ∧ scoreJob (constEnum []) (candSet reqB.candidate) jobB
        ∈ handle_match (constEnum []) reqB
    ∧ ((scoreJob (constEnum []) (candSet reqB.candidate) jobB).matched_skills).toFinset
        = candSet reqB.candidate ∩ jobSkillSet jobB := by
  have hmem : scoreJob (constEnum []) (candSet reqB.candidate) jobB
      ∈ handle_match (constEnum []) reqB := by
    rw [show handle_match (constEnum []) reqB
        = [scoreJob (constEnum []) (candSet reqB.candidate) jobB] from rfl]
    exact List.mem_singleton_self _
  exact ⟨validEnum_constEnum [], hmem,
    (C4_matched_is_intersection (constEnum []) (validEnum_constEnum [])
      (candSet reqB.candidate) jobB reqB _ hmem).1⟩

/-- C7 counterexample: `matched_skills` is collected from a `HashSet`
intersection without sorting (`main.rs` lines 111-112), so its order is
whatever the hash iteration yields; a valid (duplicate-free) iteration
order exists for which the serialized `matched_skills` of a produced
result is not lexicographically sorted. -/
theorem C7_counterexample :
    validEnum (constEnum ["rust".data, "python".data])
    ∧ ∃ r, r ∈ handle_match (constEnum ["rust".data, "python".data]) reqRP
        ∧ ¬ r.matched_skills.Pairwise LtStr := by
  refine ⟨validEnum_constEnum _,
    scoreJob (constEnum ["rust".data, "python".data]) (candSet reqRP.candidate) jobRP,
    ?_, ?_⟩
  · rw [show handle_match (constEnum ["rust".data, "python".data]) reqRP
        = [scoreJob (constEnum ["rust".data, "python".data])
            (candSet reqRP.candidate) jobRP] from rfl]
    exact List.mem_singleton_self _
  · rw [scoreJob_matched]
    have henum : constEnum ["rust".data, "python".data]
        (candSet reqRP.candidate ∩ jobSkillSet jobRP)
          = ["rust".data, "python".data] := by
      show (if candSet reqRP.candidate ∩ jobSkillSet jobRP
            = (["rust".data, "python".data] : List Str).toFinset
          ∧ (["rust".data, "python".data] : List Str).Nodup
        then ["rust".data, "python".data]
        else Finset.sort (· ≤ ·) (candSet reqRP.candidate ∩ jobSkillSet jobRP)) = _
      rw [if_pos (by decide)]
    rw [henum]
    decide

/-- C7 amended: the candidate-skill list produced by extraction is sorted
lexicographically (`v.sort()` at `main.rs` line 67), but the
`matched_skills` of a result carries no ordering guarantee — it is only
duplicate-free, in whatever order the hash set was iterated. -/
theorem C7_serialization_order_amended (t : Str) (e : SetEnum) (he : validEnum e)
    (req : MatchRequest) (r : MatchResult) (hr : r ∈ handle_match e req) :
    (extract_skills_from_text t).Pairwise LtStr
    ∧ r.matched_skills.Nodup := by
  refine ⟨extract_pairwise t, ?_⟩
  rcases mem_handle_match hr with ⟨job, _, rfl⟩
  rw [scoreJob_matched]
  exact (he _).1

/-- C7 amended witness: the amended theorem applied to Scenario A's text
and the two-skill request under a reversed enumeration. -/
theorem C7_serialization_order_amended_witness :
    validEnum (constEnum ["rust".data, "python".data])
    ∧ scoreJob (constEnum ["rust".data, "python".data]) (candSet reqRP.candidate) jobRP
        ∈ handle_match (constEnum ["rust".data, "python".data]) reqRP
    ∧ (extract_skills_from_text "I know Rust and Python".data).Pairwise LtStr
    ∧ (scoreJob (constEnum ["rust".data, "python".data])
        (candSet reqRP.candidate) jobRP).matched_skills.Nodup := by
  have hmem : scoreJob (constEnum ["rust".data, "python".data])
      (candSet reqRP.candidate) jobRP
        ∈ handle_match (constEnum ["rust".data, "python".data]) reqRP := by
    rw [show handle_match (constEnum ["rust".data, "python".data]) reqRP
        = [scoreJob (constEnum ["rust".data, "python".data])
            (candSet reqRP.candidate) jobRP] from rfl]
    exact List.mem_singleton_self _
  have h := C7_serialization_order_amended "I know Rust and Python".data
    (constEnum ["rust".data, "python".data]) (validEnum_constEnum _) reqRP _ hmem
  exact ⟨validEnum_constEnum _, hmem, h.1, h.2⟩

/-- C8: a request whose `top_k` is a negative integer is rejected at the
typed JSON boundary (`top_k: Option<usize>` cannot represent it): the
endpoint returns a validation error, never a result list, and the handler
body — extraction and scoring included — is never invoked. -/
theorem C8_negative_top_k_rejected (e : SetEnum) (raw : RawMatchRequest) (k : Int)
    (hk : raw.top_k = some k) (hneg : k < 0) :
    serveMatch e raw = Except.error invalidTopKMsg
    ∧ ∀ out : List MatchResult, serveMatch e raw ≠ Except.ok out := by
  have hdec : decodeTopK raw.top_k = Except.error invalidTopKMsg := by
    rw [hk]
    show (if k < 0 then Except.error invalidTopKMsg
        else Except.ok (some k.toNat)) = _
    rw [if_pos hneg]
  have hserve : serveMatch e raw = Except.error invalidTopKMsg := by
    show (decodeTopK raw.top_k).map _ = _
    rw [hdec]
    rfl
  exact ⟨hserve, fun out h => by rw [hserve] at h; exact Except.noConfusion h⟩

/-- C8 witness: the theorem applied to the concrete request with
`top_k = -1`. -/
theorem C8_negative_top_k_rejected_witness :
    rawNeg.top_k = some (-1) ∧ ((-1 : ℤ) < 0)
    ∧ serveMatch (constEnum []) rawNeg = Except.error invalidTopKMsg :=
  ⟨rfl, by decide,
    (C8_negative_top_k_rejected (constEnum []) rawNeg (-1) rfl (by decide)).1⟩

/-- C9: each result's score, matched set and explanation are a pure
function of the candidate's `raw_text` and the job's `description` and
`required_skills`: two inputs agreeing on those produce identical values
whatever the candidate `name` or the job `title` and `id`; and permuting
the jobs only permutes the per-job results. -/
theorem C9_score_pure (e : SetEnum) (c1 c2 : CandidateInput) (j1 j2 : JobInput)
    (hc : c1.raw_text = c2.raw_text) (hd : j1.description = j2.description)
    (hrs : j1.required_skills = j2.required_skills) :
    (scoreJob e (candSet c1) j1).score = (scoreJob e (candSet c2) j2).score
    ∧ (scoreJob e (candSet c1) j1).matched_skills
        = (scoreJob e (candSet c2) j2).matched_skills
    ∧ (scoreJob e (candSet c1) j1).explanation
        = (scoreJob e (candSet c2) j2).explanation
    ∧ ∀ jobs1 jobs2 : List JobInput, jobs1.Perm jobs2 →
        (jobs1.map (scoreJob e (candSet c1))).Perm
          (jobs2.map (scoreJob e (candSet c1))) := by
  have hcs : candSet c1 = candSet c2 := by
    unfold candSet
    rw [hc]
  have hjs : jobSkillSet j1 = jobSkillSet j2 := by
    unfold jobSkillSet
    rw [hd, hrs]
  refine ⟨?_, ?_, ?_, fun _ _ hp => hp.map _⟩
  · rw [scoreJob_score, scoreJob_score, hcs, hjs]
  · rw [scoreJob_matched, scoreJob_matched, hcs, hjs]
  · rw [scoreJob_explanation, scoreJob_explanation, hcs, hjs]

/-- C9 witness: the theorem applied to the same candidate text with and
without a `name`, and the same job content under different ids/titles. -/
theorem C9_score_pure_witness :
    cand9a.raw_text = cand9b.raw_text
    ∧ job9a.description = job9b.description
    ∧ job9a.required_skills = job9b.required_skills
    ∧ (scoreJob (constEnum []) (candSet cand9a) job9a).score
        = (scoreJob (constEnum []) (candSet cand9b) job9b).score :=
  ⟨rfl, rfl, rfl,
    (C9_score_pure (constEnum []) cand9a cand9b job9a job9b rfl rfl rfl).1⟩

/-- C10: every score the handler emits lies in `[0, 60]` (60 times a
Jaccard value in `[0, 1]`, rounded to two decimals).  In the exact
rational model no `NaN` exists; the score comparison used by the sort is
total on every pair of produced results, which is the model-level content
of "`partial_cmp(..).unwrap()` cannot panic". -/
theorem C10_scores_bounded (e : SetEnum) (req : MatchRequest) (r : MatchResult)
    (hr : r ∈ handle_match e req) :
    0 ≤ r.score ∧ r.score ≤ 60
    ∧ ∀ r2, r2 ∈ handle_match e req → scoreDesc r r2 ∨ scoreDesc r2 r := by
  refine ?_
  rcases mem_handle_match hr with ⟨job, _, rfl⟩
  exact ⟨(scoreJob_score_bounds e (candSet req.candidate) job).1,
    (scoreJob_score_bounds e (candSet req.candidate) job).2,
    fun r2 _ => le_total r2.score _⟩

/-- C10 witness: the theorem applied to Scenario A's request and its one
result. -/
theorem C10_scores_bounded_witness :
    scoreJob (constEnum ["rust".data]) (candSet reqA.candidate) jobA
        ∈ handle_match (constEnum ["rust".data]) reqA
    ∧ 0 ≤ (scoreJob (constEnum ["rust".data]) (candSet reqA.candidate) jobA).score
    ∧ (scoreJob (constEnum ["rust".data]) (candSet reqA.candidate) jobA).score ≤ 60 := by
  have hmem : scoreJob (constEnum ["rust".data]) (candSet reqA.candidate) jobA
      ∈ handle_match (constEnum ["rust".data]) reqA := by
    rw [show handle_match (constEnum ["rust".data]) reqA
        = [scoreJob (constEnum ["rust".data]) (candSet reqA.candidate) jobA] from rfl]
    exact List.mem_singleton_self _
  have h := C10_scores_bounded (constEnum ["rust".data]) reqA _ hmem
  exact ⟨hmem, h.1, h.2.1⟩

end MatchingEngine
